import Mathlib

/-!
# Verification of the `at-utils` dependency & release resolution subsystem

Shallow embedding of `src/lib/Utils.js` (adapt-authoring installer utilities):

* the recursive tree scanners `getConfigSchemaPathsRecursive` / `getAdaptDepsRecursive`,
* the dependency aggregator `getAppDependencies` / `processDeps`,
* the schema collector `getSchemas`,
* the release selector `getReleases` / `githubRequest` (with the `semver`
  library's `valid`/`gt` modelled over a parsed semantic-version type).

JavaScript objects are modelled as association lists with unique keys
(`setEntry` writes in place or appends, as property assignment does);
JavaScript's default `Array.prototype.sort()` on strings is modelled by
`sortStr`, lexicographic comparison of character code points (identical to
UTF-16 code-unit order on the ASCII data handled here); dates are modelled
as natural-number timestamps, with `Option` capturing an unknown
(`undefined` / invalid) current-version date.
-/

namespace AtUtils

open List

/-! ## Lexicographic string order (JS default `sort()` comparator) -/

/-- Code-point-wise lexicographic `≤` on character lists. -/
def listCharLeB : List Char → List Char → Bool
  | [], _ => true
  | _ :: _, [] => false
  | a :: as, b :: bs =>
    if a.toNat < b.toNat then true
    else if b.toNat < a.toNat then false
    else listCharLeB as bs

/-- Lexicographic `≤` on strings, as used by JS `Array.prototype.sort()`. -/
def strLe (a b : String) : Prop := listCharLeB a.data b.data = true

instance : DecidableRel strLe := fun _ _ => inferInstanceAs (Decidable (_ = true))

theorem listCharLeB_total : ∀ as bs : List Char,
    listCharLeB as bs = true ∨ listCharLeB bs as = true := by
  intro as
  induction as with
  | nil => intro bs; left; rfl
  | cons a as ih =>
    intro bs
    cases bs with
    | nil => right; rfl
    | cons b bs =>
      rcases Nat.lt_trichotomy a.toNat b.toNat with h | h | h
      · left; simp [listCharLeB, h]
      · have h1 : ¬ a.toNat < b.toNat := by omega
        have h2 : ¬ b.toNat < a.toNat := by omega
        simpa [listCharLeB, h1, h2] using ih bs
      · right; simp [listCharLeB, h]

theorem listCharLeB_trans : ∀ as bs cs : List Char,
    listCharLeB as bs = true → listCharLeB bs cs = true → listCharLeB as cs = true := by
  intro as
  induction as with
  | nil => intro bs cs _ _; rfl
  | cons a as ih =>
    intro bs cs h1 h2
    cases bs with
    | nil => simp [listCharLeB] at h1
    | cons b bs =>
      cases cs with
      | nil => simp [listCharLeB] at h2
      | cons c cs =>
        simp only [listCharLeB] at h1 h2 ⊢
        by_cases hab : a.toNat < b.toNat
        · by_cases hbc : b.toNat < c.toNat
          · rw [if_pos (by omega : a.toNat < c.toNat)]
          · by_cases hcb : c.toNat < b.toNat
            · rw [if_neg hbc, if_pos hcb] at h2
              exact absurd h2 Bool.false_ne_true
            · rw [if_pos (by omega : a.toNat < c.toNat)]
        · by_cases hba : b.toNat < a.toNat
          · rw [if_neg hab, if_pos hba] at h1
            exact absurd h1 Bool.false_ne_true
          · rw [if_neg hab, if_neg hba] at h1
            by_cases hbc : b.toNat < c.toNat
            · rw [if_pos (by omega : a.toNat < c.toNat)]
            · by_cases hcb : c.toNat < b.toNat
              · rw [if_neg hbc, if_pos hcb] at h2
                exact absurd h2 Bool.false_ne_true
              · rw [if_neg hbc, if_neg hcb] at h2
                rw [if_neg (by omega : ¬ a.toNat < c.toNat),
                  if_neg (by omega : ¬ c.toNat < a.toNat)]
                exact ih bs cs h1 h2

theorem listCharLeB_antisymm : ∀ as bs : List Char,
    listCharLeB as bs = true → listCharLeB bs as = true → as = bs := by
  intro as
  induction as with
  | nil =>
    intro bs _ h2
    cases bs with
    | nil => rfl
    | cons b bs => simp [listCharLeB] at h2
  | cons a as ih =>
    intro bs h1 h2
    cases bs with
    | nil => simp [listCharLeB] at h1
    | cons b bs =>
      simp only [listCharLeB] at h1 h2
      rcases Nat.lt_trichotomy a.toNat b.toNat with h | h | h
      · rw [if_neg (by omega : ¬ b.toNat < a.toNat), if_pos h] at h2
        simp at h2
      · have hab : a = b := Char.eq_of_val_eq (UInt32.toNat.inj h)
        rw [if_neg (by omega : ¬ a.toNat < b.toNat),
          if_neg (by omega : ¬ b.toNat < a.toNat)] at h1
        rw [if_neg (by omega : ¬ b.toNat < a.toNat),
          if_neg (by omega : ¬ a.toNat < b.toNat)] at h2
        rw [hab, ih bs h1 h2]
      · rw [if_neg (by omega : ¬ a.toNat < b.toNat), if_pos h] at h1
        simp at h1

instance : IsTotal String strLe := ⟨fun a b => listCharLeB_total a.data b.data⟩

instance : IsTrans String strLe := ⟨fun a b c => listCharLeB_trans a.data b.data c.data⟩

instance : IsAntisymm String strLe :=
  ⟨fun a b h1 h2 => String.toList_inj.mp (listCharLeB_antisymm a.data b.data h1 h2)⟩

/-- Model of JS `array.sort()` on an array of strings (default comparator). -/
def sortStr (l : List String) : List String := List.insertionSort strLe l

theorem sortStr_sorted (l : List String) : List.Sorted strLe (sortStr l) :=
  List.sorted_insertionSort strLe l

theorem sortStr_perm (l : List String) : sortStr l ~ l :=
  List.perm_insertionSort strLe l

theorem mem_sortStr {a : String} {l : List String} : a ∈ sortStr l ↔ a ∈ l :=
  List.mem_insertionSort strLe

/-- Sorting is determined by the multiset of elements. -/
theorem sortStr_congr {l₁ l₂ : List String} (h : l₁ ~ l₂) : sortStr l₁ = sortStr l₂ :=
  List.eq_of_perm_of_sorted ((sortStr_perm l₁).trans (h.trans (sortStr_perm l₂).symm))
    (sortStr_sorted l₁) (sortStr_sorted l₂)

/-- The sorted list of the distinct elements of `xs` (dedup then JS sort). -/
def canon (xs : List String) : List String := sortStr xs.dedup

theorem canon_congr_perm {xs ys : List String} (h : xs ~ ys) : canon xs = canon ys :=
  sortStr_congr h.dedup

theorem mem_canon {a : String} {xs : List String} : a ∈ canon xs ↔ a ∈ xs := by
  rw [canon, mem_sortStr, List.mem_dedup]

theorem canon_nodup (xs : List String) : (canon xs).Nodup :=
  ((sortStr_perm xs.dedup).nodup_iff).mpr xs.nodup_dedup

theorem canon_sorted (xs : List String) : List.Sorted strLe (canon xs) :=
  sortStr_sorted xs.dedup

/-- Canonicalisation only depends on the set of elements. -/
theorem canon_ext {xs ys : List String} (h : ∀ a, a ∈ xs ↔ a ∈ ys) :
    canon xs = canon ys :=
  sortStr_congr <| (List.perm_ext_iff_of_nodup xs.nodup_dedup ys.nodup_dedup).mpr
    (fun a => by rw [List.mem_dedup, List.mem_dedup]; exact h a)

/-! ## JS objects as association lists

A JS object is modelled as an association list with (invariantly) unique
keys; property read is `lookupM`, property assignment is `setEntry`
(in-place update of an existing key, else append — matching JS key order). -/

/-- JS property read `m[k]` (`none` = `undefined`). -/
def lookupM : List (String × α) → String → Option α
  | [], _ => none
  | (k', v) :: rest, k => if k' = k then some v else lookupM rest k

/-- JS property assignment `m[k] = v`. -/
def setEntry : List (String × α) → String → α → List (String × α)
  | [], k, v => [(k, v)]
  | (k', w) :: rest, k, v =>
    if k' = k then (k, v) :: rest else (k', w) :: setEntry rest k v

/-- The key list of a JS object (`Object.keys`, insertion order). -/
def keysOf (m : List (String × α)) : List String := m.map Prod.fst

/-- JS `array.includes(k)` for a string array. -/
def memberB : List String → String → Bool
  | [], _ => false
  | x :: rest, k => if x = k then true else memberB rest k

theorem memberB_iff {l : List String} {k : String} : memberB l k = true ↔ k ∈ l := by
  induction l with
  | nil => simp [memberB]
  | cons x rest ih =>
    by_cases h : x = k
    · subst h; simp [memberB]
    · have h' : ¬ k = x := fun hk => h hk.symm
      simp [memberB, h, h', ih]

theorem lookupM_setEntry (m : List (String × α)) (k : String) (v : α) (k' : String) :
    lookupM (setEntry m k v) k' = if k' = k then some v else lookupM m k' := by
  induction m with
  | nil =>
    by_cases h : k' = k
    · subst h; simp [setEntry, lookupM]
    · have h' : ¬ k = k' := fun hk => h hk.symm
      simp [setEntry, lookupM, h, h']
  | cons hd rest ih =>
    obtain ⟨k₀, w⟩ := hd
    by_cases h0 : k₀ = k
    · subst h0
      by_cases h1 : k' = k₀
      · subst h1; simp [setEntry, lookupM]
      · have h' : ¬ k₀ = k' := fun hk => h1 hk.symm
        simp [setEntry, lookupM, h1, h']
    · by_cases h1 : k₀ = k'
      · subst h1
        simp [setEntry, lookupM, h0, fun hk : k₀ = k => h0 hk]
      · simp [setEntry, lookupM, h0, h1, ih]

theorem lookupM_isSome_iff (m : List (String × α)) (k : String) :
    (∃ v, lookupM m k = some v) ↔ k ∈ keysOf m := by
  induction m with
  | nil => simp [lookupM, keysOf]
  | cons hd rest ih =>
    obtain ⟨k₀, w⟩ := hd
    by_cases h : k₀ = k
    · subst h; simp [lookupM, keysOf]
    · have h' : ¬ k = k₀ := fun hk => h hk.symm
      simp [lookupM, keysOf, h, h', ih]

theorem lookupM_eq_none_iff (m : List (String × α)) (k : String) :
    lookupM m k = none ↔ k ∉ keysOf m := by
  rw [← lookupM_isSome_iff]
  cases h : lookupM m k <;> simp [h]

theorem lookupM_some_mem {m : List (String × α)} {k : String} {v : α}
    (h : lookupM m k = some v) : (k, v) ∈ m := by
  induction m with
  | nil => simp [lookupM] at h
  | cons hd rest ih =>
    obtain ⟨k₀, w⟩ := hd
    by_cases h0 : k₀ = k
    · subst h0
      simp [lookupM] at h
      simp [h]
    · simp [lookupM, h0] at h
      exact List.mem_cons_of_mem _ (ih h)

/-! ## Dependency aggregator (`getAppDependencies`, `processDeps`)

`getAppDependencies` scans `node_modules` for `adapt-authoring.json` markers,
reads each plugin's `package.json` and merges `name`/`version`/
`dependencies`/`devDependencies` into `{ adapt, all, dev }`.  A plugin
manifest is modelled by the four fields the code reads; the `Promise.all`
over plugins runs each plugin's (synchronous) merge atomically in an
arbitrary arrival order, which is modelled by quantifying over permutations
of the plugin list. -/

/-- The fields of a plugin's `package.json` that `getAppDependencies` reads.
Absent `dependencies`/`devDependencies` (defaulted to `{}` by the code) are
the empty list. -/
structure PluginManifest where
  name : String
  version : String
  dependencies : List (String × String)
  devDependencies : List (String × String)
deriving DecidableEq, Repr

/-- A value of the `all`/`dev` maps after `processDeps`: bare specifier
string or list of specifiers. -/
inductive DepVal where
  | str (s : String)
  | list (l : List String)
deriving DecidableEq, Repr

/-- One `(k, v)` step of the merge loop (Utils.js:280-284):
`if (!memo[k]) memo[k] = []; if (!memo[k].includes(v)) memo[k].push(v);
memo[k] = memo[k].sort()`. -/
def insertSpec (vs : List String) (v : String) : List String :=
  sortStr (if v ∈ vs then vs else vs ++ [v])

/-- Applies `insertSpec` to `memo[k]` (missing key starts from `[]`). -/
def updateMemo (m : List (String × List String)) (k v : String) :
    List (String × List String) :=
  setEntry m k (insertSpec ((lookupM m k).getD []) v)

/-- `Object.entries(deps).forEach` of the merge loop. -/
def foldEntries (m : List (String × List String)) :
    List (String × String) → List (String × List String)
  | [] => m
  | (k, v) :: rest => foldEntries (updateMemo m k v) rest

/-- The mutable `deps` accumulator `{ adapt: {}, all: {}, dev: {} }` while
plugins are being merged. -/
structure DepsAccum where
  adapt : List (String × String)
  all : List (String × List String)
  dev : List (String × List String)

/-- Processing of a single plugin manifest (Utils.js:277-285). -/
def mergePlugin (s : DepsAccum) (p : PluginManifest) : DepsAccum :=
  { adapt := setEntry s.adapt p.name p.version
    all := foldEntries s.all p.dependencies
    dev := foldEntries s.dev p.devDependencies }

/-- Merging every discovered plugin, in arrival order. -/
def buildAccum (L : List PluginManifest) : DepsAccum :=
  L.foldl mergePlugin ⟨[], [], []⟩

/-- `processDeps` collapse step (Utils.js:360-361): a one-element array
becomes its single element; on a plain string value (the `adapt` map)
`v[d].length === 1` reads the string's length and `v[d][0]` its first
character, which is the identity on one-character strings. -/
def collapse : List String → DepVal
  | [v] => DepVal.str v
  | l => DepVal.list l

/-- The JS expression `v[d].length === 1 ? v[d][0] : v[d]` on a plain string
value, as it runs on the `adapt` map. -/
def procVersion (v : String) : String :=
  if v.length = 1 then String.mk (v.data.take 1) else v

/-- `processDeps` on the `adapt` map (string values): keys sorted, values
rewritten by the JS length-1 indexing (identity in effect). -/
def processStrMap (m : List (String × String)) : List (String × String) :=
  (canon (keysOf m)).map fun k => (k, procVersion ((lookupM m k).getD ""))

/-- `processDeps` on the `all`/`dev` maps (array values): keys sorted,
one-element arrays collapsed to the bare string. -/
def processListMap (m : List (String × List String)) : List (String × DepVal) :=
  (canon (keysOf m)).map fun k => (k, collapse ((lookupM m k).getD []))

/-- The `DependencySet` returned by `getAppDependencies`. -/
structure DependencySet where
  adapt : List (String × String)
  all : List (String × DepVal)
  dev : List (String × DepVal)
deriving DecidableEq, Repr

/-- `getAppDependencies` (Utils.js:273-293): merge all plugins, run
`processDeps`, then delete from `all` (and only `all`) every key that is
also a key of `adapt`. -/
def getAppDependencies (L : List PluginManifest) : DependencySet :=
  let s := buildAccum L
  let adapt := processStrMap s.adapt
  let allM := processListMap s.all
  let devM := processListMap s.dev
  let adaptKeys := keysOf adapt
  { adapt := adapt
    all := allM.filter fun kv => !(memberB adaptKeys kv.1)
    dev := devM }

/-! ### Canonical (order-independent) description of the merge -/

/-- The specifiers a single manifest's dependency list declares for `k`,
in declaration order. -/
def entrySpecs (es : List (String × String)) (k : String) : List String :=
  (es.filter fun kv => decide (kv.1 = k)).map Prod.snd

/-- All runtime-dependency specifiers declared for `k` across the plugin
list, in arrival order. -/
def allSpecs (L : List PluginManifest) (k : String) : List String :=
  L.flatMap fun p => entrySpecs p.dependencies k

/-- All dev-dependency specifiers declared for `k` across the plugin list. -/
def devSpecs (L : List PluginManifest) (k : String) : List String :=
  L.flatMap fun p => entrySpecs p.devDependencies k

/-- The versions successively written to `adapt[k]`, in arrival order. -/
def adaptVersions (L : List PluginManifest) (k : String) : List String :=
  (L.filter fun p => decide (p.name = k)).map PluginManifest.version

theorem entrySpecs_cons (a b : String) (es : List (String × String)) (k : String) :
    entrySpecs ((a, b) :: es) k =
      if a = k then b :: entrySpecs es k else entrySpecs es k := by
  by_cases h : a = k <;> simp [entrySpecs, List.filter_cons, h]

theorem allSpecs_cons (p : PluginManifest) (L : List PluginManifest) (k : String) :
    allSpecs (p :: L) k = entrySpecs p.dependencies k ++ allSpecs L k := by
  simp [allSpecs]

theorem devSpecs_cons (p : PluginManifest) (L : List PluginManifest) (k : String) :
    devSpecs (p :: L) k = entrySpecs p.devDependencies k ++ devSpecs L k := by
  simp [devSpecs]

theorem adaptVersions_cons (p : PluginManifest) (L : List PluginManifest) (k : String) :
    adaptVersions (p :: L) k =
      (if p.name = k then [p.version] else []) ++ adaptVersions L k := by
  by_cases h : p.name = k <;> simp [adaptVersions, List.filter_cons, h]

/-- One `insertSpec` step agrees with the canonical sorted-dedup view. -/
theorem insertSpec_canon (xs : List String) (v : String) :
    insertSpec (canon xs) v = canon (xs ++ [v]) := by
  by_cases hv : v ∈ xs
  · rw [insertSpec, if_pos (mem_canon.mpr hv), sortStr,
      List.Sorted.insertionSort_eq (canon_sorted xs)]
    exact (canon_ext fun a => by
      simp only [List.mem_append, List.mem_singleton]
      exact ⟨fun h => h.elim id (fun ha => ha ▸ hv), Or.inl⟩).symm
  · rw [insertSpec, if_neg (fun h => hv (mem_canon.mp h))]
    refine sortStr_congr ?_
    refine (List.perm_ext_iff_of_nodup ?_ (xs ++ [v]).nodup_dedup).mpr ?_
    · exact List.Nodup.append (canon_nodup xs) (List.nodup_singleton v)
        (fun a ha hb => hv (by
          rw [List.mem_singleton] at hb
          exact hb ▸ mem_canon.mp ha))
    · intro a
      simp [mem_canon, List.mem_dedup]

/-- `m` faithfully represents the history function `hist`: a key seen `n > 0`
times holds the sorted deduplicated list of its seen specifiers. -/
def Models (m : List (String × List String)) (hist : String → List String) : Prop :=
  ∀ k, lookupM m k = if hist k = [] then none else some (canon (hist k))

theorem models_nil : Models [] fun _ => [] := fun k => by simp [lookupM]

theorem models_congr {m : List (String × List String)}
    {h₁ h₂ : String → List String} (e : ∀ k, h₁ k = h₂ k) (hm : Models m h₁) :
    Models m h₂ := fun k => by rw [← e k]; exact hm k

theorem models_update {m : List (String × List String)} {hist : String → List String}
    (hm : Models m hist) (k v : String) :
    Models (updateMemo m k v)
      (fun k' => if k' = k then hist k' ++ [v] else hist k') := by
  intro k'
  by_cases hk : k' = k
  · subst hk
    show lookupM (updateMemo m k' v) k' =
      if (if k' = k' then hist k' ++ [v] else hist k') = [] then none
      else some (canon (if k' = k' then hist k' ++ [v] else hist k'))
    rw [if_pos rfl, if_neg (by simp), updateMemo, lookupM_setEntry, if_pos rfl]
    have hbase : (lookupM m k').getD [] = canon (hist k') := by
      rw [hm k']
      by_cases h0 : hist k' = []
      · rw [if_pos h0, h0]; rfl
      · rw [if_neg h0]; rfl
    rw [hbase, insertSpec_canon]
  · show lookupM (updateMemo m k v) k' =
      if (if k' = k then hist k' ++ [v] else hist k') = [] then none
      else some (canon (if k' = k then hist k' ++ [v] else hist k'))
    rw [if_neg hk, updateMemo, lookupM_setEntry, if_neg hk]
    exact hm k'

theorem models_foldEntries {m : List (String × List String)}
    {hist : String → List String} (hm : Models m hist) (es : List (String × String)) :
    Models (foldEntries m es) (fun k => hist k ++ entrySpecs es k) := by
  induction es generalizing m hist with
  | nil =>
    exact models_congr (fun k => by simp [entrySpecs]) hm
  | cons kv rest ih =>
    obtain ⟨k₀, v₀⟩ := kv
    refine models_congr (fun k => ?_) (ih (models_update hm k₀ v₀))
    rw [entrySpecs_cons]
    by_cases hk : k₀ = k
    · rw [if_pos hk, if_pos (hk.symm), List.append_assoc]
      rfl
    · rw [if_neg hk, if_neg (fun h => hk h.symm)]

/-- The accumulator after merging `L` starting from `s`, characterised by
histories. -/
theorem foldl_merge_models (L : List PluginManifest) (s : DepsAccum)
    (hall hdev had : String → List String)
    (hA : Models s.all hall) (hD : Models s.dev hdev)
    (hAd : ∀ k, lookupM s.adapt k = (had k).getLast?) :
    Models (L.foldl mergePlugin s).all (fun k => hall k ++ allSpecs L k) ∧
    Models (L.foldl mergePlugin s).dev (fun k => hdev k ++ devSpecs L k) ∧
    (∀ k, lookupM (L.foldl mergePlugin s).adapt k =
      (had k ++ adaptVersions L k).getLast?) := by
  induction L generalizing s hall hdev had with
  | nil =>
    refine ⟨models_congr (fun k => by simp [allSpecs]) hA,
      models_congr (fun k => by simp [devSpecs]) hD, fun k => ?_⟩
    simpa [adaptVersions] using hAd k
  | cons p rest ih =>
    have hA' : Models (mergePlugin s p).all
        (fun k => hall k ++ entrySpecs p.dependencies k) :=
      models_foldEntries hA p.dependencies
    have hD' : Models (mergePlugin s p).dev
        (fun k => hdev k ++ entrySpecs p.devDependencies k) :=
      models_foldEntries hD p.devDependencies
    have hAd' : ∀ k, lookupM (mergePlugin s p).adapt k =
        (had k ++ (if p.name = k then [p.version] else [])).getLast? := by
      intro k
      show lookupM (setEntry s.adapt p.name p.version) k = _
      rw [lookupM_setEntry]
      by_cases hk : k = p.name
      · rw [if_pos hk, if_pos hk.symm, List.getLast?_concat]
      · rw [if_neg hk, if_neg (show ¬ p.name = k from fun h => hk h.symm),
          List.append_nil]
        exact hAd k
    obtain ⟨m1, m2, m3⟩ := ih (mergePlugin s p)
      (fun k => hall k ++ entrySpecs p.dependencies k)
      (fun k => hdev k ++ entrySpecs p.devDependencies k)
      (fun k => had k ++ (if p.name = k then [p.version] else [])) hA' hD' hAd'
    refine ⟨models_congr (fun k => ?_) m1, models_congr (fun k => ?_) m2, fun k => ?_⟩
    · rw [allSpecs_cons, List.append_assoc]
    · rw [devSpecs_cons, List.append_assoc]
    · rw [List.foldl_cons, m3 k, adaptVersions_cons, List.append_assoc]

theorem buildAccum_models (L : List PluginManifest) :
    Models (buildAccum L).all (allSpecs L) ∧
    Models (buildAccum L).dev (devSpecs L) ∧
    (∀ k, lookupM (buildAccum L).adapt k = (adaptVersions L k).getLast?) := by
  obtain ⟨m1, m2, m3⟩ := foldl_merge_models L ⟨[], [], []⟩ (fun _ => []) (fun _ => [])
    (fun _ => []) models_nil models_nil (fun k => rfl)
  exact ⟨models_congr (fun k => by simp) m1, models_congr (fun k => by simp) m2,
    fun k => by simpa using m3 k⟩

theorem lookupM_map_pairs (ks : List String) (f : String → β) (k : String) :
    lookupM (ks.map fun k' => (k', f k')) k = if k ∈ ks then some (f k) else none := by
  induction ks with
  | nil => simp [lookupM]
  | cons a rest ih =>
    by_cases h : a = k
    · subst h; simp [lookupM]
    · have h' : ¬ k = a := fun hk => h hk.symm
      simp [lookupM, h, h', ih]

theorem lookupM_processListMap (m : List (String × List String)) (k : String) :
    lookupM (processListMap m) k = (lookupM m k).map collapse := by
  rw [processListMap, lookupM_map_pairs]
  by_cases hk : k ∈ keysOf m
  · obtain ⟨v, hv⟩ := (lookupM_isSome_iff m k).mpr hk
    rw [if_pos (mem_canon.mpr hk), hv]
    rfl
  · rw [if_neg (fun h => hk (mem_canon.mp h)), (lookupM_eq_none_iff m k).mpr hk]
    rfl

theorem lookupM_processStrMap (m : List (String × String)) (k : String) :
    lookupM (processStrMap m) k = (lookupM m k).map procVersion := by
  rw [processStrMap, lookupM_map_pairs]
  by_cases hk : k ∈ keysOf m
  · obtain ⟨v, hv⟩ := (lookupM_isSome_iff m k).mpr hk
    rw [if_pos (mem_canon.mpr hk), hv]
    rfl
  · rw [if_neg (fun h => hk (mem_canon.mp h)), (lookupM_eq_none_iff m k).mpr hk]
    rfl

/-- Processed maps are determined by the lookup function of the raw map. -/
theorem processListMap_ext {m₁ m₂ : List (String × List String)}
    (h : ∀ k, lookupM m₁ k = lookupM m₂ k) : processListMap m₁ = processListMap m₂ := by
  have hkeys : canon (keysOf m₁) = canon (keysOf m₂) := canon_ext fun k => by
    rw [← lookupM_isSome_iff, ← lookupM_isSome_iff, h k]
  rw [processListMap, processListMap, hkeys]
  exact List.map_congr_left fun k _ => by rw [h k]

theorem processStrMap_ext {m₁ m₂ : List (String × String)}
    (h : ∀ k, lookupM m₁ k = lookupM m₂ k) : processStrMap m₁ = processStrMap m₂ := by
  have hkeys : canon (keysOf m₁) = canon (keysOf m₂) := canon_ext fun k => by
    rw [← lookupM_isSome_iff, ← lookupM_isSome_iff, h k]
  rw [processStrMap, processStrMap, hkeys]
  exact List.map_congr_left fun k _ => by rw [h k]

/-- The self-reference elimination: looking up a deleted key gives nothing. -/
theorem lookupM_filter_not_member (m : List (String × DepVal)) (ks : List String)
    {k : String} (hk : k ∈ ks) :
    lookupM (m.filter fun kv => !(memberB ks kv.1)) k = none := by
  rw [lookupM_eq_none_iff, keysOf]
  intro hmem
  obtain ⟨⟨k', v⟩, hmem', hfst⟩ := List.mem_map.mp hmem
  obtain ⟨_, hkeep⟩ := List.mem_filter.mp hmem'
  rw [Bool.not_eq_true'] at hkeep
  apply absurd hk
  intro hk'
  cases hfst
  exact absurd (memberB_iff.mpr hk') (by simp [hkeep])

theorem mem_processListMap_value {m : List (String × List String)} {k : String}
    {dval : DepVal} (h : (k, dval) ∈ processListMap m) :
    dval = collapse ((lookupM m k).getD []) := by
  rw [processListMap] at h
  obtain ⟨k', _, heq⟩ := List.mem_map.mp h
  have h1 : k' = k := congrArg Prod.fst heq
  have h2 : collapse ((lookupM m k').getD []) = dval := congrArg Prod.snd heq
  rw [← h2, h1]

theorem collapse_of_length_ne_one {l : List String} (h : l.length ≠ 1) :
    collapse l = DepVal.list l := by
  match l with
  | [] => rfl
  | [v] => exact absurd rfl h
  | a :: b :: t => rfl

theorem perm_eq_of_length_le_one {l₁ l₂ : List α} (hp : l₁.Perm l₂)
    (hl : l₁.length ≤ 1) : l₁ = l₂ := by
  match l₁, hl with
  | [], _ => rw [hp.nil_eq]
  | [a], _ => exact List.singleton_perm.mp hp
  | a :: b :: t, hl => simp at hl

theorem adaptVersions_length_le_one {L : List PluginManifest}
    (h : (L.map PluginManifest.name).Nodup) (k : String) :
    (adaptVersions L k).length ≤ 1 := by
  induction L with
  | nil => simp [adaptVersions]
  | cons p rest ih =>
    rw [List.map_cons, List.nodup_cons] at h
    rw [adaptVersions_cons]
    by_cases hk : p.name = k
    · have hrest : adaptVersions rest k = [] := by
        rw [adaptVersions, List.map_eq_nil_iff, List.filter_eq_nil_iff]
        intro q hq hdec
        rw [decide_eq_true_iff] at hdec
        exact h.1 (List.mem_map.mpr ⟨q, hq, by rw [hdec, hk]⟩)
      rw [hrest, if_pos hk]
      simp
    · rw [if_neg hk, List.nil_append]
      exact ih h.2

/-- Helper for C4: case split on a collapsed canonical specifier list. -/
theorem collapse_canon_cases (specs : List String) (dval : DepVal)
    (hd : dval = collapse (canon specs)) :
    (∀ v, specs.dedup = [v] → dval = DepVal.str v) ∧
    (specs.dedup.length ≠ 1 → dval = DepVal.list (canon specs)) := by
  constructor
  · intro v hv
    rw [hd, canon, hv]
    rfl
  · intro hlen
    rw [hd]
    exact collapse_of_length_ne_one (by
      rw [canon, (sortStr_perm _).length_eq]; exact hlen)

/-- Helper: the raw merged value read back is the canonical specifier list. -/
theorem models_getD_canon {m : List (String × List String)}
    {hist : String → List String} (hm : Models m hist) (k : String) :
    (lookupM m k).getD [] = canon (hist k) := by
  rw [hm k]
  by_cases h0 : hist k = []
  · rw [if_pos h0, h0]; rfl
  · rw [if_neg h0]; rfl

/-! ## Theorems for claims C1, C3, C4 -/

/-- Two plugins where plugin "a" declares the sibling plugin "b" as a
devDependency: "b" survives in the `dev` map. -/
def c1Plugins : List PluginManifest :=
  [⟨"a", "1.0.0", [], [("b", "^1.0.0")]⟩, ⟨"b", "1.0.0", [], []⟩]

/-- C1 counterexample: the claim says a key of `adapt` is absent from both
`all` and `dev`, but the code (Utils.js:288-291) deletes adapt keys only
from `all`.  Concretely, plugin name "b" is an `adapt` key yet still occurs
in `dev` with its declared specifier. -/
theorem c1_counterexample :
    "b" ∈ keysOf (getAppDependencies c1Plugins).adapt ∧
    lookupM (getAppDependencies c1Plugins).dev "b" = some (DepVal.str "^1.0.0") := by
  constructor
  · decide
  · decide

/-- C1 (amended): in the returned DependencySet, every key of the `adapt`
map is absent from the `all` map; the `dev` map is not scrubbed. -/
theorem c1_adapt_keys_removed_from_all (L : List PluginManifest) (k : String)
    (h : k ∈ keysOf (getAppDependencies L).adapt) :
    lookupM (getAppDependencies L).all k = none := by
  have h' : k ∈ keysOf (processStrMap (buildAccum L).adapt) := h
  show lookupM ((processListMap (buildAccum L).all).filter
    fun kv => !(memberB (keysOf (processStrMap (buildAccum L).adapt)) kv.1)) k = none
  exact lookupM_filter_not_member _ _ h'

/-- Witness for the amended C1 theorem at a concrete input. -/
theorem c1_witness : lookupM (getAppDependencies c1Plugins).all "b" = none :=
  c1_adapt_keys_removed_from_all c1Plugins "b" (by decide)

/-- Two manifests sharing the name "a" with different versions: `adapt` is
last-writer-wins, so arrival order changes the result. -/
def c3PluginsA : List PluginManifest :=
  [⟨"a", "1.0.0", [], []⟩, ⟨"a", "2.0.0", [], []⟩]

/-- The same two manifests in the other arrival order. -/
def c3PluginsB : List PluginManifest :=
  [⟨"a", "2.0.0", [], []⟩, ⟨"a", "1.0.0", [], []⟩]

/-- C3 counterexample: the two lists are permutations of each other (the
same set of discovered manifests in two arrival orders), yet the resulting
DependencySets differ (adapt["a"] is "2.0.0" in one order, "1.0.0" in the
other). -/
theorem c3_counterexample :
    c3PluginsA.Perm c3PluginsB ∧
    getAppDependencies c3PluginsA ≠ getAppDependencies c3PluginsB := by
  constructor
  · decide
  · decide

/-- C3 (amended): when the discovered plugin names are pairwise distinct
(the intended situation: one manifest per installed plugin directory name),
aggregation is order-independent — any two arrival orders of the same
plugins produce structurally identical DependencySets. -/
theorem c3_order_independence (L₁ L₂ : List PluginManifest)
    (hperm : L₁.Perm L₂) (hnames : (L₁.map PluginManifest.name).Nodup) :
    getAppDependencies L₁ = getAppDependencies L₂ := by
  obtain ⟨a1, d1, v1⟩ := buildAccum_models L₁
  obtain ⟨a2, d2, v2⟩ := buildAccum_models L₂
  have hAll : ∀ k, lookupM (buildAccum L₁).all k = lookupM (buildAccum L₂).all k := by
    intro k
    rw [a1 k, a2 k]
    have hp : (allSpecs L₁ k).Perm (allSpecs L₂ k) := hperm.flatMap_right _
    by_cases h0 : allSpecs L₁ k = []
    · have h2 : allSpecs L₂ k = [] := by rw [h0] at hp; exact hp.symm.eq_nil
      rw [if_pos h0, if_pos h2]
    · have h2 : allSpecs L₂ k ≠ [] := fun hh => h0 (by rw [hh] at hp; exact hp.eq_nil)
      rw [if_neg h0, if_neg h2, canon_congr_perm hp]
  have hDev : ∀ k, lookupM (buildAccum L₁).dev k = lookupM (buildAccum L₂).dev k := by
    intro k
    rw [d1 k, d2 k]
    have hp : (devSpecs L₁ k).Perm (devSpecs L₂ k) := hperm.flatMap_right _
    by_cases h0 : devSpecs L₁ k = []
    · have h2 : devSpecs L₂ k = [] := by rw [h0] at hp; exact hp.symm.eq_nil
      rw [if_pos h0, if_pos h2]
    · have h2 : devSpecs L₂ k ≠ [] := fun hh => h0 (by rw [hh] at hp; exact hp.eq_nil)
      rw [if_neg h0, if_neg h2, canon_congr_perm hp]
  have hAd : ∀ k, lookupM (buildAccum L₁).adapt k = lookupM (buildAccum L₂).adapt k := by
    intro k
    have hpv : (adaptVersions L₁ k).Perm (adaptVersions L₂ k) := (hperm.filter _).map _
    rw [v1 k, v2 k,
      perm_eq_of_length_le_one hpv (adaptVersions_length_le_one hnames k)]
  show DependencySet.mk (processStrMap (buildAccum L₁).adapt)
      ((processListMap (buildAccum L₁).all).filter
        fun kv => !(memberB (keysOf (processStrMap (buildAccum L₁).adapt)) kv.1))
      (processListMap (buildAccum L₁).dev) =
    DependencySet.mk (processStrMap (buildAccum L₂).adapt)
      ((processListMap (buildAccum L₂).all).filter
        fun kv => !(memberB (keysOf (processStrMap (buildAccum L₂).adapt)) kv.1))
      (processListMap (buildAccum L₂).dev)
  rw [processStrMap_ext hAd, processListMap_ext hAll, processListMap_ext hDev]

/-- Two distinct-name plugins used to witness the amended C3 theorem. -/
def c3WitnessA : List PluginManifest :=
  [⟨"a", "1.0.0", [("x", "^1.0.0")], []⟩, ⟨"b", "2.0.0", [("x", "^1.0.0")], []⟩]

/-- The same plugins in the other order. -/
def c3WitnessB : List PluginManifest :=
  [⟨"b", "2.0.0", [("x", "^1.0.0")], []⟩, ⟨"a", "1.0.0", [("x", "^1.0.0")], []⟩]

/-- Witness for the amended C3 theorem at a concrete input. -/
theorem c3_witness : getAppDependencies c3WitnessA = getAppDependencies c3WitnessB :=
  c3_order_independence c3WitnessA c3WitnessB (by decide) (by decide)

/-- C4: for every name present in `all` (resp. `dev`), the stored value is
the collapsed canonical view of the specifiers observed across all plugins:
the bare string when exactly one distinct specifier was observed, and
otherwise the lexicographically sorted, deduplicated list of them. -/
theorem c4_specifier_collapse (L : List PluginManifest) (k : String) :
    (∀ dval, lookupM (getAppDependencies L).all k = some dval →
      (∀ v, (allSpecs L k).dedup = [v] → dval = DepVal.str v) ∧
      ((allSpecs L k).dedup.length ≠ 1 → dval = DepVal.list (canon (allSpecs L k)))) ∧
    (∀ dval, lookupM (getAppDependencies L).dev k = some dval →
      (∀ v, (devSpecs L k).dedup = [v] → dval = DepVal.str v) ∧
      ((devSpecs L k).dedup.length ≠ 1 → dval = DepVal.list (canon (devSpecs L k)))) := by
  obtain ⟨a1, d1, _⟩ := buildAccum_models L
  constructor
  · intro dval h
    have h' : lookupM ((processListMap (buildAccum L).all).filter
        fun kv => !(memberB (keysOf (processStrMap (buildAccum L).adapt)) kv.1)) k
        = some dval := h
    have hmem : (k, dval) ∈ processListMap (buildAccum L).all :=
      (List.mem_filter.mp (lookupM_some_mem h')).1
    have hd : dval = collapse (canon (allSpecs L k)) := by
      rw [mem_processListMap_value hmem, models_getD_canon a1]
    exact collapse_canon_cases _ _ hd
  · intro dval h
    have h' : lookupM (processListMap (buildAccum L).dev) k = some dval := h
    rw [lookupM_processListMap] at h'
    have hd : dval = collapse (canon (devSpecs L k)) := by
      have := congrArg (fun o => o.getD (DepVal.list [])) h'
      simp only [Option.getD] at this
      cases hl : lookupM (buildAccum L).dev k with
      | none => rw [hl] at h'; simp at h'
      | some vs =>
        rw [hl] at h'
        have hvs : vs = canon (devSpecs L k) := by
          have := models_getD_canon d1 k
          rw [hl] at this
          exact this
        simp only [Option.map] at h'
        cases h'
        rw [hvs]
    exact collapse_canon_cases _ _ hd

/-- Plugins declaring the dependency "x" with two distinct specifiers. -/
def c4Plugins : List PluginManifest :=
  [⟨"a", "1.0.0", [("x", "^2.0.0")], []⟩, ⟨"b", "1.0.0", [("x", "^1.0.0")], []⟩]

/-- Witness for C4 at a concrete input: two distinct specifiers collapse to
the sorted two-element list. -/
theorem c4_witness :
    (DepVal.list ["^1.0.0", "^2.0.0"]) = DepVal.list (canon (allSpecs c4Plugins "x")) :=
  ((c4_specifier_collapse c4Plugins "x").1 (DepVal.list ["^1.0.0", "^2.0.0"])
    (by decide)).2 (by decide)

/-! ## Tree scanner (`getConfigSchemaPathsRecursive`, `getAdaptDepsRecursive`)

The filesystem subtree is modelled as a tree of named files and
directories (`fs.readdir` + `fs.stat().isDirectory()`); `path.resolve(dir, c)`
on a readdir entry is `dir ++ "/" ++ c`.  The scanners walk every
sub-directory and match on `fullPath.endsWith(target)`. -/

mutual

/-- A directory entry: a plain file or a sub-directory with its entries. -/
inductive FSTree where
  | file (name : String)
  | dir (name : String) (children : FSList)

/-- The entries of a directory, as listed by `fs.readdir`. -/
inductive FSList where
  | nil
  | cons (head : FSTree) (tail : FSList)

end

/-- `pattern` matches the front of `chars` (both already reversed by the
caller, so this realises a suffix test). -/
def leadMatch : List Char → List Char → Bool
  | [], _ => true
  | _ :: _, [] => false
  | a :: as, b :: bs => if a = b then leadMatch as bs else false

/-- JS `s.endsWith(pat)`. -/
def strEndsWith (s pat : String) : Bool := leadMatch pat.data.reverse s.data.reverse

/-- JS `path.dirname` on a slash-separated path: drop the last component
and its separator. -/
def dirname (p : String) : String :=
  String.mk (((p.data.reverse.dropWhile fun c => decide (c ≠ '/')).drop 1).reverse)

mutual

/-- `getConfigSchemaPathsRecursive` on one directory entry: recurse into a
sub-directory, collect a file whose full path ends with the target. -/
def scanFiles (suffix parent : String) : FSTree → List String
  | .file n =>
    if strEndsWith (parent ++ "/" ++ n) suffix then [parent ++ "/" ++ n] else []
  | .dir n cs => scanFilesList suffix (parent ++ "/" ++ n) cs

/-- `getConfigSchemaPathsRecursive` over a directory's entries. -/
def scanFilesList (suffix parent : String) : FSList → List String
  | .nil => []
  | .cons c cs => scanFiles suffix parent c ++ scanFilesList suffix parent cs

end

mutual

/-- `getAdaptDepsRecursive` on one directory entry: as `scanFiles`, but a
match contributes `path.dirname(fullPath)` (the marker's directory). -/
def scanDirs (suffix parent : String) : FSTree → List String
  | .file n =>
    if strEndsWith (parent ++ "/" ++ n) suffix then [dirname (parent ++ "/" ++ n)]
    else []
  | .dir n cs => scanDirsList suffix (parent ++ "/" ++ n) cs

/-- `getAdaptDepsRecursive` over a directory's entries. -/
def scanDirsList (suffix parent : String) : FSList → List String
  | .nil => []
  | .cons c cs => scanDirs suffix parent c ++ scanDirsList suffix parent cs

end

mutual

/-- All file paths in a subtree (specification-side description). -/
def filePathsEntry (parent : String) : FSTree → List String
  | .file n => [parent ++ "/" ++ n]
  | .dir n cs => filePathsList (parent ++ "/" ++ n) cs

/-- All file paths under a directory's entries. -/
def filePathsList (parent : String) : FSList → List String
  | .nil => []
  | .cons c cs => filePathsEntry parent c ++ filePathsList parent cs

end

/-- `getConfigSchemaPathsRecursive(dir)` with the target suffix
`path.join('conf', 'config.schema.json')`. -/
def getConfigSchemaPathsRecursive (root : String) (entries : FSList) : List String :=
  scanFilesList "conf/config.schema.json" root entries

/-- `getAdaptDepsRecursive(dir)` with the marker file name
`adapt-authoring.json`. -/
def getAdaptDepsRecursive (root : String) (entries : FSList) : List String :=
  scanDirsList "adapt-authoring.json" root entries

mutual

theorem scanFiles_eq_filter (suffix parent : String) (t : FSTree) :
    scanFiles suffix parent t =
      (filePathsEntry parent t).filter fun p => strEndsWith p suffix := by
  cases t with
  | file n =>
    by_cases h : strEndsWith (parent ++ "/" ++ n) suffix = true
    · simp [scanFiles, filePathsEntry, List.filter, h]
    · simp only [Bool.not_eq_true] at h
      simp [scanFiles, filePathsEntry, List.filter, h]
  | dir n cs =>
    rw [scanFiles, filePathsEntry]
    exact scanFilesList_eq_filter suffix (parent ++ "/" ++ n) cs

theorem scanFilesList_eq_filter (suffix parent : String) (es : FSList) :
    scanFilesList suffix parent es =
      (filePathsList parent es).filter fun p => strEndsWith p suffix := by
  cases es with
  | nil => rfl
  | cons c cs =>
    rw [scanFilesList, filePathsList, List.filter_append,
      scanFiles_eq_filter suffix parent c, scanFilesList_eq_filter suffix parent cs]

end

mutual

theorem scanDirs_eq_map_filter (suffix parent : String) (t : FSTree) :
    scanDirs suffix parent t =
      ((filePathsEntry parent t).filter fun p => strEndsWith p suffix).map dirname := by
  cases t with
  | file n =>
    by_cases h : strEndsWith (parent ++ "/" ++ n) suffix = true
    · simp [scanDirs, filePathsEntry, List.filter, h]
    · simp only [Bool.not_eq_true] at h
      simp [scanDirs, filePathsEntry, List.filter, h]
  | dir n cs =>
    rw [scanDirs, filePathsEntry]
    exact scanDirsList_eq_map_filter suffix (parent ++ "/" ++ n) cs

theorem scanDirsList_eq_map_filter (suffix parent : String) (es : FSList) :
    scanDirsList suffix parent es =
      ((filePathsList parent es).filter fun p => strEndsWith p suffix).map dirname := by
  cases es with
  | nil => rfl
  | cons c cs =>
    rw [scanDirsList, filePathsList, List.filter_append, List.map_append,
      scanDirs_eq_map_filter suffix parent c, scanDirsList_eq_map_filter suffix parent cs]

end

mutual

theorem filePathsEntry_under_parent (parent : String) (t : FSTree) :
    ∀ p ∈ filePathsEntry parent t, ∃ tail, p = parent ++ "/" ++ tail := by
  cases t with
  | file n =>
    intro p hp
    rw [filePathsEntry, List.mem_singleton] at hp
    exact ⟨n, hp⟩
  | dir n cs =>
    intro p hp
    rw [filePathsEntry] at hp
    obtain ⟨tail, htail⟩ := filePathsList_under_parent (parent ++ "/" ++ n) cs p hp
    refine ⟨n ++ "/" ++ tail, ?_⟩
    rw [htail]
    simp [String.append_assoc]

theorem filePathsList_under_parent (parent : String) (es : FSList) :
    ∀ p ∈ filePathsList parent es, ∃ tail, p = parent ++ "/" ++ tail := by
  cases es with
  | nil => intro p hp; rw [filePathsList] at hp; exact absurd hp (List.not_mem_nil p)
  | cons c cs =>
    intro p hp
    rw [filePathsList, List.mem_append] at hp
    cases hp with
    | inl h => exact filePathsEntry_under_parent parent c p h
    | inr h => exact filePathsList_under_parent parent cs p h

end

theorem dropWhile_append_slash (cs : List Char) (h : ∀ c ∈ cs, c ≠ '/')
    (rest : List Char) :
    (cs ++ '/' :: rest).dropWhile (fun c => decide (c ≠ '/')) = '/' :: rest := by
  induction cs with
  | nil => simp [List.dropWhile]
  | cons c cs ih =>
    have hc : c ≠ '/' := h c (List.mem_cons_self c cs)
    simp only [List.cons_append, List.dropWhile_cons, decide_eq_true_eq]
    rw [if_pos hc]
    exact ih fun c' hc' => h c' (List.mem_cons_of_mem _ hc')

/-- On a path built from a directory and a slash-free entry name,
`dirname` recovers the directory. -/
theorem dirname_append (dp n : String) (hsl : ∀ c ∈ n.data, c ≠ '/') :
    dirname (dp ++ "/" ++ n) = dp := by
  have hdata : (dp ++ "/" ++ n).data = dp.data ++ '/' :: n.data := by
    simp [String.data_append]
  rw [dirname, hdata]
  have hrev : (dp.data ++ '/' :: n.data).reverse =
      n.data.reverse ++ '/' :: dp.data.reverse := by
    simp
  rw [hrev, dropWhile_append_slash n.data.reverse
    (fun c hc => hsl c (List.mem_reverse.mp hc)) dp.data.reverse,
    List.drop_one, List.tail_cons, List.reverse_reverse]

/-- C8: the tree scanner returns exactly the file paths under the root
whose path ends with the target suffix, recursing into every
sub-directory; every returned path lies under the root; and the
aggregator's scan returns, for each matching marker file, the directory
containing it (`path.dirname` of the match). -/
theorem c8_tree_scanner (suffix root : String) (es : FSList) :
    (scanFilesList suffix root es =
      (filePathsList root es).filter fun p => strEndsWith p suffix) ∧
    (∀ p ∈ filePathsList root es, ∃ tail, p = root ++ "/" ++ tail) ∧
    (getConfigSchemaPathsRecursive root es =
      (filePathsList root es).filter fun p => strEndsWith p "conf/config.schema.json") ∧
    (getAdaptDepsRecursive root es =
      ((filePathsList root es).filter
        fun p => strEndsWith p "adapt-authoring.json").map dirname) ∧
    (∀ dp n : String, (∀ c ∈ n.data, c ≠ '/') → dirname (dp ++ "/" ++ n) = dp) :=
  ⟨scanFilesList_eq_filter suffix root es,
   filePathsList_under_parent root es,
   scanFilesList_eq_filter _ root es,
   scanDirsList_eq_map_filter _ root es,
   fun dp n h => dirname_append dp n h⟩

/-- A small installed-modules tree with one plugin directory. -/
def c8Tree : FSList :=
  .cons (.dir "adapt-authoring-core" (.cons (.file "adapt-authoring.json")
    (.cons (.dir "conf" (.cons (.file "config.schema.json") .nil)) .nil))) .nil

/-- Witness for C8 at a concrete tree: the scanners agree with the
filtered file-path view, a found path lies under the root, and `dirname`
recovers the marker's containing directory. -/
theorem c8_witness :
    (∃ tail, "/app/node_modules/adapt-authoring-core/adapt-authoring.json" =
      "/app/node_modules" ++ "/" ++ tail) ∧
    dirname ("/app/node_modules/adapt-authoring-core" ++ "/" ++ "adapt-authoring.json") =
      "/app/node_modules/adapt-authoring-core" := by
  have h := c8_tree_scanner "adapt-authoring.json" "/app/node_modules" c8Tree
  exact ⟨h.2.1 _ (by decide), h.2.2.2.2 _ _ (by decide)⟩

/-! ## Schema collector (`getSchemas`)

`getSchemas` pairs every discovered `conf/config.schema.json` with its
owning package's manifest, then installs a fixed synthetic `user`
schema for super-user registration (Utils.js:151-174).  The per-plugin
schema documents are opaque parsed JSON, modelled by a type parameter. -/

/-- The manifest fields `getSchemas` destructures for each schema owner. -/
structure PackageInfo where
  name : String
  description : String
  version : String
deriving DecidableEq, Repr

/-- One property of the synthetic super-user schema. -/
structure FieldSchema where
  description : String
  type : String
  format : String
deriving DecidableEq, Repr

/-- The synthetic object schema for super-user registration. -/
structure UserObjectSchema where
  title : String
  type : String
  properties : List (String × FieldSchema)
  required : List String
deriving DecidableEq, Repr

/-- The `schemas.user` document: a properties map. -/
structure UserSchemaDoc where
  properties : List (String × UserObjectSchema)
deriving DecidableEq, Repr

/-- One entry of `schemas.config`. -/
structure ConfigEntry (α : Type) where
  name : String
  description : String
  version : String
  schema : α

/-- The structure returned by `getSchemas`. -/
structure Schemas (α : Type) where
  config : List (String × ConfigEntry α)
  user : UserSchemaDoc

/-- The fixed super-user registration schema literal (Utils.js:159-172). -/
def superUserSchema : UserObjectSchema :=
  { title := "superuser"
    type := "object"
    properties :=
      [("email", ⟨"Email address for the user", "string", "email"⟩),
       ("password", ⟨"Password for the user", "string", "password"⟩),
       ("confirmPassword", ⟨"Re-enter password", "string", "password"⟩)]
    required := ["email", "password", "confirmPassword"] }

/-- `getSchemas`: build `config` from the discovered (owner package,
schema document) pairs (later same-name discoveries overwrite earlier
ones), and always set the fixed `user` schema. -/
def getSchemas (found : List (PackageInfo × α)) : Schemas α :=
  { config := found.foldl
      (fun m ps => setEntry m ps.1.name ⟨ps.1.name, ps.1.description, ps.1.version, ps.2⟩)
      []
    user := { properties := [("superUser", superUserSchema)] } }

/-- C7: independent of the discovered plugin schemas, the collector's
result carries the fixed super-user registration schema entry, whose
properties are exactly email, password and confirmPassword — all of type
string — and whose required list is exactly those three fields. -/
theorem c7_superuser_schema (α : Type) (found : List (PackageInfo × α)) :
    lookupM (getSchemas found).user.properties "superUser" = some superUserSchema ∧
    keysOf superUserSchema.properties = ["email", "password", "confirmPassword"] ∧
    superUserSchema.properties.map (fun kv => kv.2.type) =
      ["string", "string", "string"] ∧
    superUserSchema.required = ["email", "password", "confirmPassword"] :=
  ⟨rfl, rfl, rfl, rfl⟩

/-! ## Semantic versions

Model of the external `semver` library functions the selector uses:
`semver.valid` (strict grammar, optional leading `v`) and `semver.gt`
(numeric core comparison, then prerelease precedence). -/

/-- Numeric value of a digit string. -/
def digitsVal (cs : List Char) : Nat :=
  cs.foldl (fun n c => n * 10 + (c.toNat - 48)) 0

/-- A strict numeric identifier: digits only, no leading zero. -/
def isNumIdent : List Char → Bool
  | [] => false
  | [c] => c.isDigit
  | c :: cs => c.isDigit && decide (c ≠ '0') && cs.all Char.isDigit

/-- Characters allowed in prerelease/build identifiers. -/
def isIdentChar (c : Char) : Bool := c.isDigit || c.isAlpha || decide (c = '-')

/-- A prerelease identifier: numeric or alphanumeric. -/
inductive PreId where
  | num (n : Nat)
  | alnum (cs : List Char)
deriving DecidableEq, Repr

/-- Parse one prerelease identifier. -/
def parsePreId (cs : List Char) : Option PreId :=
  if cs.isEmpty then none
  else if cs.all Char.isDigit then
    if isNumIdent cs then some (PreId.num (digitsVal cs)) else none
  else if cs.all isIdentChar then some (PreId.alnum cs) else none

/-- Split a character list at every occurrence of `c`. -/
def splitOnChar (c : Char) : List Char → List (List Char)
  | [] => [[]]
  | x :: xs =>
    if x = c then [] :: splitOnChar c xs
    else
      match splitOnChar c xs with
      | [] => [[x]]
      | p :: ps => (x :: p) :: ps

/-- Split a character list at the first occurrence of `c`, if any. -/
def breakAtChar (c : Char) : List Char → Option (List Char × List Char)
  | [] => none
  | x :: xs =>
    if x = c then some ([], xs)
    else (breakAtChar c xs).map fun p => (x :: p.1, p.2)

/-- A parsed semantic version (build metadata is validated but ignored). -/
structure SemVer where
  major : Nat
  minor : Nat
  patch : Nat
  pre : List PreId
deriving DecidableEq, Repr

/-- Parse a main-version component. -/
def parseMainNum (cs : List Char) : Option Nat :=
  if isNumIdent cs then some (digitsVal cs) else none

/-- Parse a dot-separated prerelease identifier list. -/
def parsePreList : List (List Char) → Option (List PreId)
  | [] => some []
  | p :: ps =>
    match parsePreId p, parsePreList ps with
    | some i, some is => some (i :: is)
    | _, _ => none

/-- A build identifier: non-empty, allowed characters only. -/
def isBuildIdent (cs : List Char) : Bool := !cs.isEmpty && cs.all isIdentChar

/-- `semver.parse` over the strict grammar
`v? MAJOR.MINOR.PATCH (-prerelease)? (+build)?`. -/
def semverParse (s : String) : Option SemVer :=
  let cs :=
    match s.data with
    | 'v' :: rest => rest
    | cs0 => cs0
  let core := match breakAtChar '+' cs with
    | none => cs
    | some p => p.1
  let buildOk := match breakAtChar '+' cs with
    | none => true
    | some p => (splitOnChar '.' p.2).all isBuildIdent
  let mainPart := match breakAtChar '-' core with
    | none => core
    | some p => p.1
  let preParsed : Option (List PreId) := match breakAtChar '-' core with
    | none => some []
    | some p => parsePreList (splitOnChar '.' p.2)
  match splitOnChar '.' mainPart with
  | [ma, mi, pa] =>
    match parseMainNum ma, parseMainNum mi, parseMainNum pa, preParsed, buildOk with
    | some vM, some vm, some vp, some pre, true => some ⟨vM, vm, vp, pre⟩
    | _, _, _, _, _ => none
  | _ => none

/-- `semver.valid(x)` is truthy. -/
def semverValid (s : String) : Bool := (semverParse s).isSome

/-- Strict code-point-wise `<` on character lists (identifier compare). -/
def listCharLtB : List Char → List Char → Bool
  | [], [] => false
  | [], _ :: _ => true
  | _ :: _, [] => false
  | a :: as, b :: bs =>
    if a.toNat < b.toNat then true
    else if b.toNat < a.toNat then false
    else listCharLtB as bs

/-- Prerelease identifier precedence: numeric below alphanumeric. -/
def preIdLt : PreId → PreId → Bool
  | .num a, .num b => decide (a < b)
  | .num _, .alnum _ => true
  | .alnum _, .num _ => false
  | .alnum a, .alnum b => listCharLtB a b

/-- Prerelease identifier list precedence (a shorter prefix is lower). -/
def preListLt : List PreId → List PreId → Bool
  | [], [] => false
  | [], _ :: _ => true
  | _ :: _, [] => false
  | a :: as, b :: bs => if a = b then preListLt as bs else preIdLt a b

/-- Semantic-version precedence: numeric core, then prerelease (a version
without prerelease outranks one with). -/
def semverLtB (x y : SemVer) : Bool :=
  if x.major ≠ y.major then decide (x.major < y.major)
  else if x.minor ≠ y.minor then decide (x.minor < y.minor)
  else if x.patch ≠ y.patch then decide (x.patch < y.patch)
  else
    match x.pre, y.pre with
    | [], [] => false
    | [], _ :: _ => false
    | _ :: _, [] => true
    | a, b => preListLt a b

/-- `semver.gt(a, b)` (false whenever either side does not parse). -/
def semverGtB (a b : String) : Bool :=
  match semverParse a, semverParse b with
  | some x, some y => semverLtB y x
  | _, _ => false

/-! ## Release selector (`getReleases`, `githubRequest`)

Dates (`published_at` strings and `new Date(...)` values) are natural
timestamps; the current-version date is `Option Nat`, `none` standing for
`undefined`/invalid, against which JS `>` is always false. -/

/-- `getReleases` options (absent `currentVersion` is `none`). -/
structure ReleaseOptions where
  currentVersion : Option String
  includeBranches : Bool
  includePrereleases : Bool
  includeDrafts : Bool
deriving DecidableEq, Repr

/-- A release object as fetched (or synthesised for a branch): GitHub
releases carry `draft`/`prerelease`; the absent `branch`/`draft`/
`prerelease` fields of the other shape are the falsy `false`. -/
structure RawRelease where
  name : String
  tag_name : String
  published_at : Nat
  draft : Bool
  prerelease : Bool
  branch : Bool
deriving DecidableEq, Repr

/-- A candidate after the annotation `map` step added `date`. -/
structure Release where
  name : String
  tag_name : String
  date : Nat
  draft : Bool
  prerelease : Bool
  branch : Bool
deriving DecidableEq, Repr

/-- A branch from the `branches` endpoint (only the name is used). -/
structure Branch where
  name : String
deriving DecidableEq, Repr

/-- The synthetic candidate pushed per branch (Utils.js:79-84). -/
def mkBranchRelease (b : Branch) (commitDate : Nat) : RawRelease :=
  { name := b.name ++ " (branch)"
    tag_name := b.name
    published_at := commitDate
    draft := false
    prerelease := false
    branch := true }

/-- The annotation step (Utils.js:88-93). -/
def annotate (r : RawRelease) : Release :=
  { name := r.name ++
      (if r.draft then " (draft)" else if r.prerelease then " (prerelease)" else "")
    tag_name := r.tag_name
    date := r.published_at
    draft := r.draft
    prerelease := r.prerelease
    branch := r.branch }

/-- JS falsiness of `options.currentVersion` (undefined or empty). -/
def falsyCV : Option String → Bool
  | none => true
  | some s => decide (s = "")

/-- The exclusion clause of the filter (Utils.js:95). -/
def excludedB (opts : ReleaseOptions) (r : Release) : Bool :=
  (opts.currentVersion == some r.tag_name) || (r.prerelease && !opts.includePrereleases)
    || (r.draft && !opts.includeDrafts)

/-- `semver.valid(cv) && semver.valid(tag) && semver.gt(tag, cv) ?? false`. -/
def semverNewerB (cv : Option String) (tag : String) : Bool :=
  match cv with
  | none => false
  | some c => semverValid c && semverValid tag && semverGtB tag c

/-- `r.date > currentVersionDate` (false against an unknown date). -/
def dateNewerB (cvd : Option Nat) (d : Nat) : Bool :=
  match cvd with
  | none => false
  | some c => decide (c < d)

/-- The filter predicate of Utils.js:94-102. -/
def keepRelease (opts : ReleaseOptions) (cvd : Option Nat) (r : Release) : Bool :=
  if excludedB opts r then false
  else falsyCV opts.currentVersion || semverNewerB opts.currentVersion r.tag_name
    || dateNewerB cvd r.date

/-- The order realised by the comparator `(a, b) => a.date < b.date ? 1 : -1`:
`a` stays before `b` exactly when the comparator is non-positive, i.e.
`b.date ≤ a.date` (descending by date). -/
def releaseLe (a b : Release) : Prop := b.date ≤ a.date

instance : DecidableRel releaseLe := fun a b => Nat.decLe b.date a.date

instance : IsTotal Release releaseLe := ⟨fun a b => Nat.le_total b.date a.date⟩

instance : IsTrans Release releaseLe := ⟨fun _ _ _ hab hbc => Nat.le_trans hbc hab⟩

/-- The pure selection pipeline: append branch candidates, annotate,
filter, sort by date descending (Utils.js:87-103). -/
def selectReleases (opts : ReleaseOptions) (cvd : Option Nat)
    (releases : List RawRelease) (branchPairs : List (Branch × Nat)) : List Release :=
  List.insertionSort releaseLe
    (((releases ++ branchPairs.map fun bc => mkBranchRelease bc.1 bc.2).map annotate).filter
      (keepRelease opts cvd))

/-- `githubRequest` (Utils.js:55-67): any status above 299 throws. -/
def githubRequest (status : Nat) (body : α) : Except String α :=
  if status > 299 then Except.error "request failed" else Except.ok body

/-- The remote host's state for one selector call: the responses the three
kinds of request would get. -/
structure RemoteEnv where
  releasesStatus : Nat
  releasesBody : List RawRelease
  branchesStatus : Nat
  branchesBody : List Branch
  commitStatus : Branch → Nat
  commitDate : Branch → Nat

/-- The per-branch head-commit lookups (Utils.js:77-85). -/
def fetchBranchDates (env : RemoteEnv) : List Branch → Except String (List (Branch × Nat))
  | [] => Except.ok []
  | b :: bs =>
    match githubRequest (env.commitStatus b) (env.commitDate b) with
    | Except.error e => Except.error e
    | Except.ok d =>
      match fetchBranchDates env bs with
      | Except.error e => Except.error e
      | Except.ok rest => Except.ok ((b, d) :: rest)

/-- `getReleases` after the current-version date is settled: fetch the
releases, optionally the branches with their commit dates, then select. -/
def getReleasesCore (opts : ReleaseOptions) (cvd : Option Nat) (env : RemoteEnv) :
    Except String (List Release) :=
  match githubRequest env.releasesStatus env.releasesBody with
  | Except.error e => Except.error e
  | Except.ok releases =>
    match (if opts.includeBranches then
        match githubRequest env.branchesStatus env.branchesBody with
        | Except.error e => Except.error e
        | Except.ok bs => fetchBranchDates env bs
      else Except.ok []) with
    | Except.error e => Except.error e
    | Except.ok branchPairs => Except.ok (selectReleases opts cvd releases branchPairs)

/-- `getReleases` (Utils.js:69-104): the `git log` result is an `Except`
whose failure is swallowed by the `try/catch`, leaving no current date. -/
def getReleasesRun (opts : ReleaseOptions) (gitResult : Except String Nat)
    (env : RemoteEnv) : Except String (List Release) :=
  getReleasesCore opts
    (match gitResult with
     | Except.ok d => some d
     | Except.error _ => none) env

/-! ### Spec-side filter predicates (C2) -/

/-- The spec's exclusion clause, stated propositionally. -/
def specExcluded (opts : ReleaseOptions) (r : Release) : Prop :=
  opts.currentVersion = some r.tag_name ∨
  (r.prerelease = true ∧ opts.includePrereleases = false) ∨
  (r.draft = true ∧ opts.includeDrafts = false)

/-- "No currentVersion is given": absent, or the degenerate empty string
(both falsy to the code's check). -/
def noCurrentGiven (opts : ReleaseOptions) : Prop :=
  opts.currentVersion = none ∨ opts.currentVersion = some ""

/-- The spec's retention clause, stated propositionally. -/
def specRetained (opts : ReleaseOptions) (cvd : Option Nat) (r : Release) : Prop :=
  noCurrentGiven opts ∨
  (∃ c, opts.currentVersion = some c ∧ semverValid c = true ∧
    semverValid r.tag_name = true ∧ semverGtB r.tag_name c = true) ∨
  (∃ d, cvd = some d ∧ d < r.date)

theorem falsyCV_iff (opts : ReleaseOptions) :
    falsyCV opts.currentVersion = true ↔ noCurrentGiven opts := by
  cases h : opts.currentVersion with
  | none => simp [falsyCV, noCurrentGiven, h]
  | some s => simp [falsyCV, noCurrentGiven, h]

theorem semverNewerB_iff (opts : ReleaseOptions) (tag : String) :
    semverNewerB opts.currentVersion tag = true ↔
      (∃ c, opts.currentVersion = some c ∧ semverValid c = true ∧
        semverValid tag = true ∧ semverGtB tag c = true) := by
  cases h : opts.currentVersion with
  | none => simp [semverNewerB, h]
  | some c => simp [semverNewerB, h, Bool.and_eq_true, and_assoc]

theorem dateNewerB_iff (cvd : Option Nat) (d : Nat) :
    dateNewerB cvd d = true ↔ (∃ c, cvd = some c ∧ c < d) := by
  cases cvd <;> simp [dateNewerB]

theorem excludedB_iff (opts : ReleaseOptions) (r : Release) :
    excludedB opts r = true ↔ specExcluded opts r := by
  simp [excludedB, specExcluded, Bool.or_eq_true, Bool.and_eq_true, Bool.not_eq_true',
    or_assoc]

/-- C2: a candidate is excluded exactly by the tag/prerelease/draft
clauses; a non-excluded candidate is retained iff no currentVersion is
given (absent or the degenerate empty string), or both sides are valid
semantic versions with the candidate strictly greater, or the candidate's
date is strictly after the known current-version date; and the returned
sequence consists exactly of the annotated candidates passing that
filter. -/
theorem c2_filter_semantics (opts : ReleaseOptions) (cvd : Option Nat) :
    (∀ r, excludedB opts r = true ↔ specExcluded opts r) ∧
    (∀ r, excludedB opts r = false →
      (keepRelease opts cvd r = true ↔ specRetained opts cvd r)) ∧
    (∀ (releases : List RawRelease) (branchPairs : List (Branch × Nat)) (r : Release),
      r ∈ selectReleases opts cvd releases branchPairs ↔
        (r ∈ (releases ++ branchPairs.map fun bc => mkBranchRelease bc.1 bc.2).map annotate ∧
          keepRelease opts cvd r = true)) := by
  refine ⟨fun r => excludedB_iff opts r, fun r hex => ?_, fun releases branchPairs r => ?_⟩
  · rw [keepRelease, if_neg (by rw [hex]; exact Bool.false_ne_true), specRetained,
      Bool.or_eq_true, Bool.or_eq_true, falsyCV_iff, semverNewerB_iff, dateNewerB_iff]
    exact or_assoc
  · rw [selectReleases, (List.perm_insertionSort releaseLe _).mem_iff, List.mem_filter]

/-- Inputs for the C2 witness: current version 3.2.0, a newer 3.3.0. -/
def c2Opts : ReleaseOptions := ⟨some "3.2.0", false, false, false⟩

/-- Witness for C2 at a concrete input: 3.3.0 is retained, and the
equivalence yields the spec-side retention predicate. -/
theorem c2_witness : specRetained c2Opts (some 10) ⟨"3.3.0", "3.3.0", 30, false, false, false⟩ :=
  ((c2_filter_semantics c2Opts (some 10)).2.1 ⟨"3.3.0", "3.3.0", 30, false, false, false⟩
    (by decide)).mp (by decide)

/-- C9: a synthetic branch candidate carries the branch name plus
" (branch)" as display name, the branch name as tag, the head-commit date,
branch = true and no draft/prerelease marking; hence the draft and
prerelease exclusion clauses never fire on it — the exclusion test
reduces to the current-version tag comparison, independent of the
includeDrafts/includePrereleases flags. -/
theorem c9_branch_candidates (b : Branch) (d : Nat) (opts : ReleaseOptions) :
    (annotate (mkBranchRelease b d)).name = b.name ++ " (branch)" ∧
    (annotate (mkBranchRelease b d)).tag_name = b.name ∧
    (annotate (mkBranchRelease b d)).date = d ∧
    (annotate (mkBranchRelease b d)).branch = true ∧
    (annotate (mkBranchRelease b d)).draft = false ∧
    (annotate (mkBranchRelease b d)).prerelease = false ∧
    excludedB opts (annotate (mkBranchRelease b d)) =
      (opts.currentVersion == some b.name) := by
  refine ⟨?_, rfl, rfl, rfl, rfl, rfl, ?_⟩
  · exact String.append_empty _
  · show ((opts.currentVersion == some b.name) || (false && !opts.includePrereleases)
      || (false && !opts.includeDrafts)) = (opts.currentVersion == some b.name)
    simp

/-- C5: the returned sequence is sorted by date descending — every earlier
element's date is at least every later element's date (in particular for
adjacent pairs), so a candidate (e.g. a branch) whose date is the most
recent sorts before every candidate with an older date. -/
theorem c5_sorted_descending (opts : ReleaseOptions) (cvd : Option Nat)
    (releases : List RawRelease) (branchPairs : List (Branch × Nat)) :
    List.Sorted releaseLe (selectReleases opts cvd releases branchPairs) ∧
    (∀ (l₁ l₂ : List Release) (a b : Release),
      selectReleases opts cvd releases branchPairs = l₁ ++ a :: l₂ →
      b ∈ l₂ → b.date ≤ a.date) := by
  have hs : List.Sorted releaseLe (selectReleases opts cvd releases branchPairs) :=
    List.sorted_insertionSort releaseLe _
  refine ⟨hs, fun l₁ l₂ a b heq hb => ?_⟩
  rw [heq] at hs
  exact (List.pairwise_cons.mp (List.pairwise_append.mp hs).2.1).1 b hb

/-- Inputs for the C5 witness: one tagged release, one newer branch. -/
def c5Opts : ReleaseOptions := ⟨none, true, false, false⟩

/-- Witness for C5 at a concrete input: the branch with the most recent
head-commit date sorts before the older tagged release. -/
theorem c5_witness :
    (⟨"r1", "1.0.0", 50, false, false, false⟩ : Release).date ≤
      (⟨"master (branch)", "master", 100, false, false, true⟩ : Release).date :=
  (c5_sorted_descending c5Opts none [⟨"r1", "1.0.0", 50, false, false, false⟩]
      [(⟨"master"⟩, 100)]).2
    [] [⟨"r1", "1.0.0", 50, false, false, false⟩]
    ⟨"master (branch)", "master", 100, false, false, true⟩
    ⟨"r1", "1.0.0", 50, false, false, false⟩ (by decide) (by decide)

theorem fetchBranchDates_error (env : RemoteEnv) (bs : List Branch) (b : Branch)
    (hb : b ∈ bs) (h : 299 < env.commitStatus b) :
    ∃ msg, fetchBranchDates env bs = Except.error msg := by
  induction bs with
  | nil => exact absurd hb (List.not_mem_nil b)
  | cons b0 rest ih =>
    rcases List.mem_cons.mp hb with rfl | hbr
    · exact ⟨"request failed", by simp [fetchBranchDates, githubRequest, h]⟩
    · cases hreq : githubRequest (env.commitStatus b0) (env.commitDate b0) with
      | error e => exact ⟨e, by simp [fetchBranchDates, hreq]⟩
      | ok d =>
        obtain ⟨msg, hmsg⟩ := ih hbr
        exact ⟨msg, by simp [fetchBranchDates, hreq, hmsg]⟩

/-- C6: the request-level check fails exactly above status 299; a failing
releases request, branches request, or per-branch commit lookup makes the
whole call fail; and a failing local git-log lookup never does — the call
then computes as if no current date were known. -/
theorem c6_failure_semantics (opts : ReleaseOptions) (env : RemoteEnv) :
    (∀ (st : Nat) (body : List RawRelease),
      githubRequest st body = Except.error "request failed" ↔ 299 < st) ∧
    (299 < env.releasesStatus →
      ∀ g, ∃ msg, getReleasesRun opts g env = Except.error msg) ∧
    (opts.includeBranches = true → 299 < env.branchesStatus →
      ∀ g, ∃ msg, getReleasesRun opts g env = Except.error msg) ∧
    (opts.includeBranches = true →
      ∀ b ∈ env.branchesBody, 299 < env.commitStatus b →
        ∀ g, ∃ msg, getReleasesRun opts g env = Except.error msg) ∧
    (∀ e, getReleasesRun opts (Except.error e) env = getReleasesCore opts none env) := by
  refine ⟨fun st body => ?_, fun h g => ?_, fun hib h g => ?_, fun hib b hb h g => ?_,
    fun e => rfl⟩
  · by_cases hst : 299 < st <;> simp [githubRequest, hst]
  · exact ⟨"request failed", by simp [getReleasesRun, getReleasesCore, githubRequest, h]⟩
  · cases hrel : githubRequest env.releasesStatus env.releasesBody with
    | error e => exact ⟨e, by simp [getReleasesRun, getReleasesCore, hrel]⟩
    | ok rels =>
      have hbr : githubRequest env.branchesStatus env.branchesBody =
          (Except.error "request failed" : Except String (List Branch)) := by
        simp [githubRequest, h]
      exact ⟨"request failed",
        by simp [getReleasesRun, getReleasesCore, hrel, hib, hbr]⟩
  · cases hrel : githubRequest env.releasesStatus env.releasesBody with
    | error e => exact ⟨e, by simp [getReleasesRun, getReleasesCore, hrel]⟩
    | ok rels =>
      by_cases hbst : 299 < env.branchesStatus
      · have hbr : githubRequest env.branchesStatus env.branchesBody =
            (Except.error "request failed" : Except String (List Branch)) := by
          simp [githubRequest, hbst]
        exact ⟨"request failed",
          by simp [getReleasesRun, getReleasesCore, hrel, hib, hbr]⟩
      · have hbr : githubRequest env.branchesStatus env.branchesBody =
            Except.ok env.branchesBody := by simp [githubRequest, hbst]
        obtain ⟨msg, hmsg⟩ := fetchBranchDates_error env env.branchesBody b hb h
        exact ⟨msg, by simp [getReleasesRun, getReleasesCore, hrel, hib, hbr, hmsg]⟩

/-- Remote state for the C6 witness: the releases request fails. -/
def c6Env : RemoteEnv := ⟨404, [], 200, [], fun _ => 200, fun _ => 0⟩

/-- Witness for C6 at a concrete input: a 404 on the releases request makes
the whole call fail even though the git lookup succeeded. -/
theorem c6_witness :
    ∃ msg, getReleasesRun ⟨none, false, false, false⟩ (Except.ok 5) c6Env =
      Except.error msg :=
  (c6_failure_semantics ⟨none, false, false, false⟩ c6Env).2.1 (by decide) (Except.ok 5)

/-- C10: with a (non-empty) currentVersion supplied and the local commit
date unknown, the retention step can only succeed through the
semantic-version clause; in particular an invalid currentVersion empties
the selection. -/
theorem c10_invalid_current_version (opts : ReleaseOptions) (c : String)
    (hc : opts.currentVersion = some c) (hne : c ≠ "") :
    (∀ r, keepRelease opts none r = true →
      semverNewerB opts.currentVersion r.tag_name = true) ∧
    (semverValid c = false →
      ∀ (releases : List RawRelease) (branchPairs : List (Branch × Nat)),
        selectReleases opts none releases branchPairs = []) := by
  have hfalsy : falsyCV opts.currentVersion = false := by
    rw [hc]; simp [falsyCV, hne]
  constructor
  · intro r h
    rw [keepRelease] at h
    by_cases hex : excludedB opts r = true
    · rw [if_pos hex] at h
      exact absurd h Bool.false_ne_true
    · rw [if_neg hex, hfalsy] at h
      have hdn : dateNewerB none r.date = false := rfl
      rw [hdn] at h
      simpa using h
  · intro hval releases branchPairs
    rw [selectReleases]
    have hfilter :
        (((releases ++ branchPairs.map fun bc => mkBranchRelease bc.1 bc.2).map
          annotate).filter (keepRelease opts none)) = [] := by
      rw [List.filter_eq_nil_iff]
      intro r _
      rw [keepRelease]
      by_cases hex : excludedB opts r = true
      · rw [if_pos hex]
        simp
      · rw [if_neg hex, hfalsy]
        have hsn : semverNewerB opts.currentVersion r.tag_name = false := by
          rw [hc]
          simp [semverNewerB, hval]
        rw [hsn]
        simp [dateNewerB]
    rw [hfilter]
    rfl

/-- Witness for C10 at a concrete input: currentVersion "master" is not a
valid semantic version and the git lookup failed, so nothing survives. -/
theorem c10_witness :
    selectReleases ⟨some "master", false, false, false⟩ none
      [⟨"v1", "1.0.0", 100, false, false, false⟩] [] = [] :=
  (c10_invalid_current_version ⟨some "master", false, false, false⟩ "master" rfl
    (by decide)).2 (by decide) [⟨"v1", "1.0.0", 100, false, false, false⟩] []

end AtUtils
